import Mathlib

/-!
# Verification of the WINGA-ONINE client-side product search core

Shallow embedding of `src/src/services/imgbb.ts` (second document in that
file): `searchProducts`, `fuzzyMatch`, `getSearchSuggestions`.

Modelling conventions:
* JS strings are Lean `String`s (lists of characters).  `toLowerCase` is
  mapped per character with `Char.toLower` (ASCII case mapping, as in core
  Lean); `trim` drops `Char.isWhitespace` characters from both ends;
  `String.prototype.includes` / `startsWith` are infix / prefix tests on the
  character lists.
* `split(/\s+/)` splits on maximal whitespace runs.  JS additionally yields
  an empty leading/trailing token when the string starts/ends with
  whitespace; `searchProducts` filters empty tokens away and in
  `getSearchSuggestions` an empty token can never satisfy
  `word.startsWith(normalizedQuery) && word.length > normalizedQuery.length`
  for the nonempty normalized query, so the run-splitting model is
  observationally identical in both call sites.
* JS numbers used for scores/ratings are modelled as `ℚ` (all score
  arithmetic in the source is exact in binary floating point for the
  magnitudes involved; ratings may be fractional, e.g. 4.5).
  `Math.ceil(query.length * 0.7)` is modelled as the exact rational ceiling
  `⌈7·n/10⌉ = (7n+9)/10`; for `n = 10` (and every feasible string length)
  the double-precision product `n * 0.7` rounds so that the ceilings agree.
* `Array.prototype.sort` (stable since ES2019) with comparator
  `(a,b) => b.score - a.score` / `localeCompare` is modelled by the stable
  `List.mergeSort` with the corresponding boolean "may come first" relation;
  `localeCompare` is modelled as code-point lexicographic comparison.
* The `Product` interface (imported from `../types`, not part of the search
  module) carries further fields (`id`, `price`, `image`, …) that the search
  core never reads; the embedding keeps exactly the fields the search code
  uses, as listed in §3 of the specification.
-/

set_option maxRecDepth 100000

namespace Winga

/-- `s.toLowerCase()`: per-character ASCII lowering. -/
def lowerStr (s : String) : String := ⟨s.data.map Char.toLower⟩

/-- `trim` on a character list: drop whitespace from both ends. -/
def trimL (l : List Char) : List Char :=
  ((l.dropWhile Char.isWhitespace).reverse.dropWhile Char.isWhitespace).reverse

/-- `s.trim()`. -/
def trimStr (s : String) : String := ⟨trimL s.data⟩

/-- `query.toLowerCase().trim()` — the normalized query. -/
def normalizeQuery (q : String) : String := trimStr (lowerStr q)

/-- `s.includes(sub)`: substring containment. -/
def includes (s sub : String) : Bool := decide (sub.data <:+: s.data)

/-- `s.startsWith(pre)`. -/
def startsWithStr (s pre : String) : Bool := decide (pre.data <+: s.data)

/-- Splitting into maximal nonempty whitespace-free runs
(`split(/\s+/)` up to empty edge tokens, see the module comment).
`cur` is the reversed current run. -/
def wordsAux : List Char → List Char → List (List Char)
  | [], cur => if cur.isEmpty then [] else [cur.reverse]
  | c :: cs, cur =>
    if c.isWhitespace then
      if cur.isEmpty then wordsAux cs [] else cur.reverse :: wordsAux cs []
    else wordsAux cs (c :: cur)

/-- The whitespace-separated words of a character list. -/
def splitWsRuns (l : List Char) : List (List Char) := wordsAux l []

/-- `normalizedQuery.split(/\s+/).filter(w => w.length > 0)`. -/
def queryWordsOf (q : String) : List String :=
  (splitWsRuns (normalizeQuery q).data).map String.mk

/-- The catalog item fields read by the search core (spec §3). -/
structure Product where
  name : String
  brand : String
  description : String
  category : String
  rating : ℚ
  inStock : Bool
deriving DecidableEq, Repr

/-- `SearchResult.matchType`. -/
inductive MatchType
  | exact
  | startsWith
  | contains
  | fuzzy
deriving DecidableEq, Repr

/-- The `SearchResult` record produced per matching product. -/
structure SearchResult where
  product : Product
  score : ℚ
  matchType : MatchType
  matchedFields : List String
deriving DecidableEq, Repr

/-- The two-pointer scan of `fuzzyMatch`: how far `queryIndex` gets when
greedily matching `q` as a subsequence of `s`. -/
def fuzzyScan : List Char → List Char → Nat
  | [], _ => 0
  | _ :: _, [] => 0
  | c :: s, a :: q => if c = a then fuzzyScan s q + 1 else fuzzyScan s (a :: q)

/-- `Math.ceil(n * 0.7)` as the exact rational ceiling `⌈7n/10⌉`. -/
def fuzzyThreshold (n : Nat) : Nat := (7 * n + 9) / 10

/-- `fuzzyMatch(str, query)` from the source. -/
def fuzzyMatch (str query : String) : Bool :=
  if query.length < 2 then false
  else fuzzyThreshold query.length ≤ fuzzyScan str.data query.data

/-- `if (!fields.includes(f)) fields.push(f)`. -/
def pushField (fs : List String) (f : String) : List String :=
  if f ∈ fs then fs else fs ++ [f]

/-- The `for (const word of queryWords)` loop of `searchProducts`,
threading `(score, wordMatches, matchedFields)`. -/
def wordLoop (name brand description category : String) :
    List String → ℚ × Nat × List String → ℚ × Nat × List String
  | [], acc => acc
  | w :: ws, (s, m, mf) =>
    if includes name w then
      wordLoop name brand description category ws (s + 50, m + 1, pushField mf "name")
    else if includes brand w then
      wordLoop name brand description category ws (s + 30, m + 1, pushField mf "brand")
    else if includes description w then
      wordLoop name brand description category ws (s + 20, m + 1, pushField mf "description")
    else if includes category w then
      wordLoop name brand description category ws (s + 15, m + 1, pushField mf "category")
    else
      wordLoop name brand description category ws (s, m, mf)

/-- The mutually-exclusive name-match tier of `searchProducts`
(exact / starts-with / contains / fuzzy, first match wins): its score
contribution, the match type, and the initial matched-fields list. -/
def nameTier (name nq : String) : ℚ × MatchType × List String :=
  if name = nq then (1000, .exact, ["name"])
  else if startsWithStr name nq then (500, .startsWith, ["name"])
  else if includes name nq then (300, .contains, ["name"])
  else if fuzzyMatch name nq then (100, .fuzzy, ["name"])
  else (0, .fuzzy, [])

/-- `if (wordMatches === queryWords.length && queryWords.length > 1)
score += 50`, as the added amount. -/
def allWordsBonus (qws : List String) (m : Nat) : ℚ :=
  if m = qws.length ∧ 1 < qws.length then 50 else 0

/-- The brand exact-match / contains bonus, with its matched-fields
update. -/
def brandBonus (brand nq : String) (mf : List String) : ℚ × List String :=
  if brand = nq then (200, pushField mf "brand")
  else if includes brand nq then (100, pushField mf "brand")
  else (0, mf)

/-- The description-contains-query bonus, with its matched-fields update. -/
def descBonus (description nq : String) (mf : List String) : ℚ × List String :=
  if includes description nq then (50, pushField mf "description") else (0, mf)

/-- The category-match bonus, with its matched-fields update. -/
def catBonus (category nq : String) (mf : List String) : ℚ × List String :=
  if includes category nq then (30, pushField mf "category") else (0, mf)

/-- The per-product body of `searchProducts`' main loop: score, match type
and matched fields for one product against the precomputed
`normalizedQuery` and `queryWords`, assembling the tiers in source order. -/
def scoreProduct (nq : String) (qws : List String) (p : Product) : SearchResult :=
  let name := lowerStr p.name
  let brand := lowerStr p.brand
  let description := lowerStr p.description
  let category := lowerStr p.category
  let tier := nameTier name nq
  -- word-by-word matching
  let w := wordLoop name brand description category qws (tier.1, 0, tier.2.2)
  -- bonus for matching all words
  let s2 := w.1 + allWordsBonus qws w.2.1
  let bb := brandBonus brand nq w.2.2
  let db := descBonus description nq bb.2
  let cb := catBonus category nq db.2
  -- in-stock bonus
  let s6 := if p.inStock then s2 + bb.1 + db.1 + cb.1 + 10 else s2 + bb.1 + db.1 + cb.1
  -- rating bonus
  { product := p, score := s6 + p.rating * 2, matchType := tier.2.1, matchedFields := cb.2 }

/-- Code-point lexicographic `≤` on character lists — the model of
`a.localeCompare(b) <= 0`. -/
def lexLe : List Char → List Char → Bool
  | [], _ => true
  | _ :: _, [] => false
  | a :: as, b :: bs => if a = b then lexLe as bs else decide (a < b)

/-- The sort comparator of `searchProducts` as a boolean "may precede"
relation: `(a,b) => (b.score !== a.score) ? b.score - a.score
: a.name.localeCompare(b.name)`, with `localeCompare` modelled as
code-point lexicographic comparison. -/
def resultLE (a b : SearchResult) : Bool :=
  if a.score = b.score then lexLe a.product.name.data b.product.name.data
  else decide (b.score < a.score)

/-- `searchProducts(query, products, maxResults = 10)`. -/
def searchProducts (query : String) (products : List Product)
    (maxResults : Nat := 10) : List SearchResult :=
  if (trimStr query).length = 0 then []
  else
    let nq := normalizeQuery query
    let qws := queryWordsOf query
    let results := (products.map (scoreProduct nq qws)).filter fun r => decide (0 < r.score)
    (results.mergeSort resultLE).take maxResults

/-- `word.charAt(0).toUpperCase() + word.slice(1)`. -/
def capitalizeJs (w : String) : String :=
  match w.data with
  | [] => ""
  | c :: cs => ⟨c.toUpper :: cs⟩

/-- `suggestions.add(s)` on the insertion-ordered set, as a duplicate-free
list. -/
def addSuggestion (acc : List String) (s : String) : List String :=
  if s ∈ acc then acc else acc ++ [s]

/-- `if (name.includes(normalizedQuery) && product.name)
suggestions.add(product.name)` — note the truthiness test on the raw field. -/
def suggestName (nq : String) (p : Product) (acc : List String) : List String :=
  if includes (lowerStr p.name) nq ∧ p.name ≠ "" then addSuggestion acc p.name else acc

/-- `if (brand.includes(normalizedQuery) && product.brand)
suggestions.add(product.brand)`. -/
def suggestBrand (nq : String) (p : Product) (acc : List String) : List String :=
  if includes (lowerStr p.brand) nq ∧ p.brand ≠ "" then addSuggestion acc p.brand else acc

/-- `if (category.includes(normalizedQuery) && product.category)
suggestions.add(product.category)`. -/
def suggestCategory (nq : String) (p : Product) (acc : List String) : List String :=
  if includes (lowerStr p.category) nq ∧ p.category ≠ "" then addSuggestion acc p.category else acc

/-- The `for (const word of nameWords)` loop: add each word of the
lower-cased name that properly extends the query as a prefix, with its first
character capitalized. -/
def suggestWords (nq name : String) (acc : List String) : List String :=
  (splitWsRuns name.data).foldl
    (fun a w =>
      if startsWithStr ⟨w⟩ nq ∧ nq.length < w.length then
        addSuggestion a (capitalizeJs ⟨w⟩)
      else a)
    acc

/-- The per-product body of `getSearchSuggestions`' loop: conditionally add
the name, brand, category and capitalized name-word prefixes, in source
order. -/
def suggestItem (nq : String) (p : Product) (acc : List String) : List String :=
  suggestWords nq (lowerStr p.name)
    (suggestCategory nq p (suggestBrand nq p (suggestName nq p acc)))

/-- The `for (const product of products)` loop of `getSearchSuggestions`,
with its `if (suggestions.size >= maxSuggestions) break`. -/
def suggestLoop (nq : String) (limit : Nat) : List Product → List String → List String
  | [], acc => acc
  | p :: ps, acc =>
    let acc' := suggestItem nq p acc
    if limit ≤ acc'.length then acc' else suggestLoop nq limit ps acc'

/-- `getSearchSuggestions(query, products, maxSuggestions = 8)`. -/
def getSearchSuggestions (query : String) (products : List Product)
    (maxSuggestions : Nat := 8) : List String :=
  if (trimStr query).length = 0 then []
  else
    let nq := normalizeQuery query
    (suggestLoop nq maxSuggestions products []).take maxSuggestions



/-- The per-item scoring as `searchProducts` invokes it: normalize and split
the query once, then score the product. -/
def scoreFor (query : String) (p : Product) : SearchResult :=
  scoreProduct (normalizeQuery query) (queryWordsOf query) p

/-- The claim's reading of the spec sentence: SOME (not necessarily initial)
`k` of the query's characters appear, in order, as a subsequence of the
candidate. -/
def subseqCover (str q : String) (k : Nat) : Prop :=
  ∃ l : List Char, l.Sublist q.data ∧ l.Sublist str.data ∧ k ≤ l.length

/-- Append `s` to the last word of a word list (`[s]` when there is no
word). -/
def extendLast : List (List Char) → List Char → List (List Char)
  | [], s => [s]
  | [w], s => [w ++ s]
  | w :: v :: ws, s => w :: extendLast (v :: ws) s

/-- The score credit one query word earns: the first field (in priority
order name, brand, description, category) that contains it. -/
def wordCredit (name brand description category w : String) : ℚ :=
  if includes name w then 50
  else if includes brand w then 30
  else if includes description w then 20
  else if includes category w then 15
  else 0

/-- Whether a query word matches some field. -/
def wordMatched (name brand description category w : String) : Bool :=
  includes name w || includes brand w || includes description w || includes category w

/-- The score parts of the three simple bonuses are independent of the
matched-fields argument. -/
def brandScore (brand nq : String) : ℚ :=
  if brand = nq then 200 else if includes brand nq then 100 else 0

def descScore (description nq : String) : ℚ :=
  if includes description nq then 50 else 0

def catScore (category nq : String) : ℚ :=
  if includes category nq then 30 else 0

-- fuzzyMatch sanity checks
example : fuzzyMatch "wireless mouse" "logitech mouse" = false := by decide
example : fuzzyMatch "iphone" "iphne" = true := by decide
example : fuzzyMatch "abc" "xyz123notfound" = false := by decide

-- Scenario A sanity check: exact match, rating 4.5, in stock ⇒ 1169.
example :
    (scoreProduct (normalizeQuery "iphone 13") (queryWordsOf "iphone 13")
      ⟨"iPhone 13", "Apple", "", "phones", 9/2, true⟩).score
      = 1169 := by with_unfolding_all rfl

/-! ### Character-level helper lemmas -/

theorem char_toNat_ofNat_valid (n : Nat) (h : n.isValidChar) :
    (Char.ofNat n).toNat = n := by
  simp [Char.ofNat, h, Char.ofNatAux, Char.toNat, UInt32.toNat]

theorem char_eq_of_toNat_eq {c d : Char} (h : c.toNat = d.toNat) : c = d :=
  Char.eq_of_val_eq (UInt32.toNat.inj h)

theorem char_toLower_eq_self {c : Char} (h : ¬(c.toNat ≥ 65 ∧ c.toNat ≤ 90)) :
    Char.toLower c = c := by
  simp only [Char.toLower]
  rw [if_neg h]

/-- The value of a character sent through the lower-case branch. -/
theorem char_toLower_toNat {c : Char} (h65 : 65 ≤ c.toNat) (h90 : c.toNat ≤ 90) :
    (Char.toLower c).toNat = c.toNat + 32 := by
  have hv : (c.toNat + 32).isValidChar := Or.inl (by omega)
  have hcond : c.toNat ≥ 65 ∧ c.toNat ≤ 90 := ⟨h65, h90⟩
  simp only [Char.toLower]
  rw [if_pos hcond]
  exact char_toNat_ofNat_valid _ hv

theorem char_isWhitespace_iff_toNat (c : Char) :
    c.isWhitespace = true ↔ c.toNat = 32 ∨ c.toNat = 9 ∨ c.toNat = 13 ∨ c.toNat = 10 := by
  constructor
  · intro h
    simp only [Char.isWhitespace, Bool.or_eq_true, decide_eq_true_eq] at h
    rcases h with ((h | h) | h) | h <;> subst h <;> simp [Char.toNat]
  · rintro (h | h | h | h)
    · have : c = ' ' := char_eq_of_toNat_eq (by rw [h]; rfl)
      subst this; decide
    · have : c = '\t' := char_eq_of_toNat_eq (by rw [h]; rfl)
      subst this; decide
    · have : c = '\r' := char_eq_of_toNat_eq (by rw [h]; rfl)
      subst this; decide
    · have : c = '\n' := char_eq_of_toNat_eq (by rw [h]; rfl)
      subst this; decide

theorem toLower_isWhitespace (c : Char) :
    (Char.toLower c).isWhitespace = c.isWhitespace := by
  by_cases h : c.toNat ≥ 65 ∧ c.toNat ≤ 90
  · have hl := char_toLower_toNat h.1 h.2
    have h1 : ¬(Char.toLower c).isWhitespace = true := by
      rw [char_isWhitespace_iff_toNat]
      omega
    have h2 : ¬c.isWhitespace = true := by
      rw [char_isWhitespace_iff_toNat]
      omega
    rw [Bool.not_eq_true] at h1 h2
    rw [h1, h2]
  · rw [char_toLower_eq_self h]

theorem toLower_toLower (c : Char) :
    Char.toLower (Char.toLower c) = Char.toLower c := by
  by_cases h : c.toNat ≥ 65 ∧ c.toNat ≤ 90
  · have hl := char_toLower_toNat h.1 h.2
    exact char_toLower_eq_self (by omega)
  · rw [char_toLower_eq_self h, char_toLower_eq_self h]

theorem lowerStr_lowerStr (s : String) : lowerStr (lowerStr s) = lowerStr s := by
  simp [lowerStr, List.map_map, Function.comp_def, toLower_toLower]

theorem lowerStr_append (s t : String) :
    lowerStr (s ++ t) = lowerStr s ++ lowerStr t := by
  apply congrArg String.mk
  show (s ++ t).data.map Char.toLower
      = (String.mk (s.data.map Char.toLower) ++ String.mk (t.data.map Char.toLower)).data
  rw [String.data_append, String.data_append, List.map_append]

/-! ### Trim helper lemmas -/

theorem trimL_of_all_whitespace {l : List Char}
    (h : ∀ c ∈ l, c.isWhitespace = true) : trimL l = [] := by
  unfold trimL
  have h1 : l.dropWhile Char.isWhitespace = [] := by
    rw [List.dropWhile_eq_nil_iff]
    intro x hx
    exact h x hx
  rw [h1]
  rfl

theorem trimL_eq_self_of_ends {l : List Char}
    (hhead : ∀ (h : 0 < l.length), ((l.get ⟨0, h⟩).isWhitespace) = false)
    (hlast : ∀ (h : l ≠ []), (l.getLast h).isWhitespace = false) :
    trimL l = l := by
  unfold trimL
  have h1 : l.dropWhile Char.isWhitespace = l := by
    rw [List.dropWhile_eq_self_iff]
    intro hl
    rw [hhead hl]
    simp
  rw [h1]
  have h2 : l.reverse.dropWhile Char.isWhitespace = l.reverse := by
    rw [List.dropWhile_eq_self_iff]
    intro hl
    rcases List.eq_nil_or_concat l with rfl | ⟨t, c, hl'⟩
    · simp at hl
    · rw [List.concat_eq_append] at hl'
      subst hl'
      have hne : t ++ [c] ≠ [] := by simp
      have hlw := hlast hne
      rw [List.getLast_append_of_ne_nil (by simp : ([c] : List Char) ≠ [])] at hlw
      simp only [List.getLast_singleton] at hlw
      simp only [List.reverse_append, List.reverse_cons, List.reverse_nil,
        List.nil_append, List.cons_append, List.get_eq_getElem, List.getElem_cons_zero]
      rw [hlw]
      simp
  rw [h2, List.reverse_reverse]

/-- A nonempty string whose `trim` is itself starts with a non-whitespace
character. -/
theorem head_not_ws_of_trim_eq {l : List Char} (h : trimL l = l) :
    ∀ (hl : 0 < l.length), (l.get ⟨0, hl⟩).isWhitespace = false := by
  intro hl
  rcases l with _ | ⟨c, t⟩
  · simp at hl
  · simp only [List.get_eq_getElem, List.getElem_cons_zero]
    by_contra hc
    rw [Bool.not_eq_false] at hc
    have hlen : (trimL (c :: t)).length < (c :: t).length := by
      unfold trimL
      rw [List.dropWhile_cons, if_pos hc]
      calc ((List.dropWhile Char.isWhitespace t).reverse.dropWhile
              Char.isWhitespace).reverse.length
          ≤ (List.dropWhile Char.isWhitespace t).reverse.length := by
            rw [List.length_reverse]
            exact (List.dropWhile_suffix _).sublist.length_le
        _ ≤ t.length := by
            rw [List.length_reverse]
            exact (List.dropWhile_suffix _).sublist.length_le
        _ < (c :: t).length := by simp
    rw [h] at hlen
    exact lt_irrefl _ hlen

/-- A nonempty string whose `trim` is itself ends with a non-whitespace
character. -/
theorem last_not_ws_of_trim_eq {l : List Char} (h : trimL l = l)
    (hne : l ≠ []) : (l.getLast hne).isWhitespace = false := by
  by_contra hc
  rw [Bool.not_eq_false] at hc
  have hlen : (trimL l).length < l.length := by
    unfold trimL
    by_cases hm : l.dropWhile Char.isWhitespace = []
    · rw [hm]
      simp only [List.reverse_nil, List.dropWhile_nil, List.length_nil]
      exact List.length_pos.mpr hne
    · -- the dropWhile result is a nonempty suffix of `l`, so it ends in
      -- `l.getLast`, which is whitespace; the right trim then shortens it
      obtain ⟨pre, hpre⟩ :=
        (List.dropWhile_suffix Char.isWhitespace :
          List.dropWhile Char.isWhitespace l <:+ l)
      rcases List.eq_nil_or_concat (l.dropWhile Char.isWhitespace) with h0 | ⟨t', e, hte⟩
      · exact absurd h0 hm
      · rw [List.concat_eq_append] at hte
        have hel : e = l.getLast hne := by
          have h1 : l = (pre ++ t') ++ [e] := by
            rw [List.append_assoc, ← hte, hpre]
          have h2 : l.getLast hne = ((pre ++ t') ++ [e]).getLast (by simp) := by
            congr 1
          rw [h2, List.getLast_concat]
        have hew : e.isWhitespace = true := by rw [hel]; exact hc
        have hlenl : l.length = pre.length + t'.length + 1 := by
          rw [← hpre, hte, List.length_append, List.length_append]
          simp only [List.length_singleton]
          omega
        calc ((l.dropWhile Char.isWhitespace).reverse.dropWhile
                Char.isWhitespace).reverse.length
            = ((l.dropWhile Char.isWhitespace).reverse.dropWhile
                Char.isWhitespace).length := List.length_reverse _
          _ ≤ t'.length := by
              rw [hte]
              have hr : (t' ++ [e]).reverse = e :: t'.reverse := by simp
              rw [hr, List.dropWhile_cons, if_pos hew]
              calc (t'.reverse.dropWhile Char.isWhitespace).length
                  ≤ t'.reverse.length := (List.dropWhile_suffix _).sublist.length_le
                _ = t'.length := List.length_reverse _
          _ < l.length := by omega
  rw [h] at hlen
  exact lt_irrefl _ hlen

/-! ### Substring-test helper lemmas -/

theorem includes_iff {s sub : String} : includes s sub = true ↔ sub.data <:+: s.data := by
  simp [includes]

theorem includes_refl (s : String) : includes s s = true :=
  includes_iff.mpr (List.infix_refl _)

theorem includes_of_startsWith {s pre : String} (h : startsWithStr s pre = true) :
    includes s pre = true := by
  simp only [startsWithStr, decide_eq_true_eq] at h
  exact includes_iff.mpr h.isInfix

/-- A string containing `w ++ v` contains `w`. -/
theorem includes_append_left {f : String} {w v : List Char}
    (h : includes f ⟨w ++ v⟩ = true) : includes f ⟨w⟩ = true := by
  rw [includes_iff] at h ⊢
  exact (List.prefix_append w v).isInfix.trans h

theorem length_le_of_includes {s sub : String} (h : includes s sub = true) :
    sub.data.length ≤ s.data.length :=
  (includes_iff.mp h).sublist.length_le

/-! ### C7: empty / whitespace-only queries -/

theorem trimStr_eq_empty_of_ws {q : String}
    (hq : ∀ c ∈ q.data, c.isWhitespace = true) : trimStr q = "" :=
  congrArg String.mk (trimL_of_all_whitespace hq)

/-- **C7.** For every query that is empty or consists only of whitespace, and
for every item list and limit, `searchProducts` returns the empty list and
`getSearchSuggestions` returns the empty list (no error is possible: both
functions are total). -/
theorem claim_C7_theorem (q : String) (hq : ∀ c ∈ q.data, c.isWhitespace = true)
    (ps : List Product) (n : Nat) :
    searchProducts q ps n = [] ∧ getSearchSuggestions q ps n = [] := by
  have ht : trimStr q = "" := trimStr_eq_empty_of_ws hq
  constructor
  · unfold searchProducts
    rw [ht]
    rfl
  · unfold getSearchSuggestions
    rw [ht]
    rfl

/-- Witness for C7 at the whitespace-only query `"  "`. -/
theorem claim_C7_witness :
    searchProducts "  " [⟨"iPhone", "Apple", "", "", 4, true⟩] 5 = [] ∧
      getSearchSuggestions "  " [⟨"iPhone", "Apple", "", "", 4, true⟩] 5 = [] :=
  claim_C7_theorem "  " (by decide) [⟨"iPhone", "Apple", "", "", 4, true⟩] 5

/-! ### C8 / C9: result-length limits -/

theorem searchProducts_length_le (q : String) (ps : List Product) (n : Nat) :
    (searchProducts q ps n).length ≤ n := by
  unfold searchProducts
  split
  · simp
  · exact List.length_take_le _ _

theorem getSearchSuggestions_length_le (q : String) (ps : List Product) (n : Nat) :
    (getSearchSuggestions q ps n).length ≤ n := by
  unfold getSearchSuggestions
  split
  · simp
  · exact List.length_take_le _ _

/-- **C8.** For all inputs, `searchProducts` returns at most `n` results and
`getSearchSuggestions` returns at most `n` suggestions. -/
theorem claim_C8_theorem (q : String) (ps : List Product) (n : Nat) :
    (searchProducts q ps n).length ≤ n ∧ (getSearchSuggestions q ps n).length ≤ n :=
  ⟨searchProducts_length_le q ps n, getSearchSuggestions_length_le q ps n⟩

/-- **C9.** When the limit argument is omitted, `getSearchSuggestions`
defaults it to `8` (unlike `searchProducts`, whose default is `10`), so the
returned list has length at most 8. -/
theorem claim_C9_theorem (q : String) (ps : List Product) :
    getSearchSuggestions q ps = getSearchSuggestions q ps 8 ∧
      (getSearchSuggestions q ps).length ≤ 8 :=
  ⟨rfl, getSearchSuggestions_length_le q ps 8⟩

/-! ### C10: suggestions are never the empty string -/

theorem addSuggestion_ne_empty {acc : List String} {s : String}
    (hacc : ∀ y ∈ acc, y ≠ "") (hs : s ≠ "") :
    ∀ y ∈ addSuggestion acc s, y ≠ "" := by
  unfold addSuggestion
  split
  · exact hacc
  · intro y hy
    rcases List.mem_append.mp hy with h | h
    · exact hacc y h
    · rw [List.mem_singleton.mp h]
      exact hs

theorem capitalizeJs_ne_empty {w : List Char} (hw : w ≠ []) :
    capitalizeJs ⟨w⟩ ≠ "" := by
  rcases w with _ | ⟨c, cs⟩
  · exact absurd rfl hw
  · unfold capitalizeJs
    intro h
    have := congrArg String.data h
    simp at this

theorem suggestName_ne_empty {nq : String} {p : Product} {acc : List String}
    (hacc : ∀ y ∈ acc, y ≠ "") : ∀ y ∈ suggestName nq p acc, y ≠ "" := by
  unfold suggestName
  split
  · next h => exact addSuggestion_ne_empty hacc h.2
  · exact hacc

theorem suggestBrand_ne_empty {nq : String} {p : Product} {acc : List String}
    (hacc : ∀ y ∈ acc, y ≠ "") : ∀ y ∈ suggestBrand nq p acc, y ≠ "" := by
  unfold suggestBrand
  split
  · next h => exact addSuggestion_ne_empty hacc h.2
  · exact hacc

theorem suggestCategory_ne_empty {nq : String} {p : Product} {acc : List String}
    (hacc : ∀ y ∈ acc, y ≠ "") : ∀ y ∈ suggestCategory nq p acc, y ≠ "" := by
  unfold suggestCategory
  split
  · next h => exact addSuggestion_ne_empty hacc h.2
  · exact hacc

theorem suggestWords_ne_empty {nq name : String} {acc : List String}
    (hacc : ∀ y ∈ acc, y ≠ "") : ∀ y ∈ suggestWords nq name acc, y ≠ "" := by
  unfold suggestWords
  generalize splitWsRuns name.data = ws
  induction ws generalizing acc with
  | nil => simpa using hacc
  | cons w ws ih =>
    simp only [List.foldl_cons]
    apply ih
    split
    · next h =>
      apply addSuggestion_ne_empty hacc
      apply capitalizeJs_ne_empty
      intro hw
      rw [hw] at h
      simp at h
    · exact hacc

theorem suggestItem_ne_empty {nq : String} {p : Product} {acc : List String}
    (hacc : ∀ y ∈ acc, y ≠ "") : ∀ y ∈ suggestItem nq p acc, y ≠ "" :=
  suggestWords_ne_empty
    (suggestCategory_ne_empty (suggestBrand_ne_empty (suggestName_ne_empty hacc)))

theorem suggestLoop_ne_empty {nq : String} {limit : Nat} (ps : List Product)
    (acc : List String) (hacc : ∀ y ∈ acc, y ≠ "") :
    ∀ y ∈ suggestLoop nq limit ps acc, y ≠ "" := by
  induction ps generalizing acc with
  | nil => simpa [suggestLoop] using hacc
  | cons p ps ih =>
    show ∀ y ∈ (if limit ≤ (suggestItem nq p acc).length then suggestItem nq p acc
      else suggestLoop nq limit ps (suggestItem nq p acc)), y ≠ ""
    split
    · exact suggestItem_ne_empty hacc
    · exact ih _ (suggestItem_ne_empty hacc)

/-- **C10.** Every string returned by `getSearchSuggestions` is non-empty:
names, brands and categories are only added when the raw field is non-empty,
and word-prefix suggestions are capitalized tokens strictly longer than the
normalized query. -/
theorem claim_C10_theorem (q : String) (ps : List Product) (n : Nat)
    (s : String) (hs : s ∈ getSearchSuggestions q ps n) : s ≠ "" := by
  unfold getSearchSuggestions at hs
  split at hs
  · simp at hs
  · exact suggestLoop_ne_empty ps [] (by simp) s (List.mem_of_mem_take hs)

/-- Witness for C10: the suggestion `"Phone"` produced for query `"pho"`. -/
theorem claim_C10_witness : ("Phone" : String) ≠ "" :=
  claim_C10_theorem "pho" [⟨"phone", "", "", "", 4, true⟩] 8 "Phone" (by decide)

/-! ### C6: early termination of the suggestion scan -/

/-- Once the suggestion loop has accumulated `limit` suggestions, appending
further products to the scanned list does not change its result. -/
theorem suggestLoop_append {nq : String} {limit : Nat} (more : List Product) :
    ∀ (rest : List Product) (p : Product) (acc : List String),
      limit ≤ (suggestLoop nq limit (p :: rest) acc).length →
      suggestLoop nq limit ((p :: rest) ++ more) acc
        = suggestLoop nq limit (p :: rest) acc := by
  intro rest
  induction rest with
  | nil =>
    intro p acc h
    by_cases hc : limit ≤ (suggestItem nq p acc).length
    · show (if limit ≤ (suggestItem nq p acc).length then suggestItem nq p acc
          else suggestLoop nq limit more (suggestItem nq p acc)) = _
      rw [if_pos hc]
      show _ = (if limit ≤ (suggestItem nq p acc).length then suggestItem nq p acc
          else suggestLoop nq limit [] (suggestItem nq p acc))
      rw [if_pos hc]
    · exfalso
      apply hc
      have he : suggestLoop nq limit [p] acc = suggestItem nq p acc := by
        show (if limit ≤ (suggestItem nq p acc).length then suggestItem nq p acc
            else suggestLoop nq limit [] (suggestItem nq p acc)) = _
        rw [if_neg hc]
        rfl
      rw [he] at h
      exact h
  | cons q rest ih =>
    intro p acc h
    by_cases hc : limit ≤ (suggestItem nq p acc).length
    · show (if limit ≤ (suggestItem nq p acc).length then suggestItem nq p acc
          else suggestLoop nq limit ((q :: rest) ++ more) (suggestItem nq p acc)) = _
      rw [if_pos hc]
      show _ = (if limit ≤ (suggestItem nq p acc).length then suggestItem nq p acc
          else suggestLoop nq limit (q :: rest) (suggestItem nq p acc))
      rw [if_pos hc]
    · have he : suggestLoop nq limit (p :: q :: rest) acc
          = suggestLoop nq limit (q :: rest) (suggestItem nq p acc) := by
        show (if limit ≤ (suggestItem nq p acc).length then suggestItem nq p acc
            else suggestLoop nq limit (q :: rest) (suggestItem nq p acc)) = _
        rw [if_neg hc]
      rw [he] at h
      show (if limit ≤ (suggestItem nq p acc).length then suggestItem nq p acc
          else suggestLoop nq limit ((q :: rest) ++ more) (suggestItem nq p acc)) = _
      rw [if_neg hc, he]
      exact ih q (suggestItem nq p acc) h

/-- **C6.** Once the accumulated count of unique suggestions reaches the
limit, no later item in the input list is examined or contributes: the
output of `getSearchSuggestions` on `ps ++ more` equals the output on `ps`
whenever the scan of `ps` alone already reaches the limit. -/
theorem claim_C6_theorem (q : String) (ps more : List Product) (limit : Nat)
    (h : limit ≤ (suggestLoop (normalizeQuery q) limit ps []).length) :
    getSearchSuggestions q (ps ++ more) limit = getSearchSuggestions q ps limit := by
  unfold getSearchSuggestions
  split
  · rfl
  · rcases ps with _ | ⟨p, rest⟩
    · -- an empty scanned list reaches the limit only for `limit = 0`,
      -- where the final truncation makes both sides empty
      have h0 : limit = 0 := by
        have : (suggestLoop (normalizeQuery q) limit [] []).length = 0 := rfl
        omega
      rw [h0]
      simp
    · show List.take limit (suggestLoop (normalizeQuery q) limit ((p :: rest) ++ more) [])
        = List.take limit (suggestLoop (normalizeQuery q) limit (p :: rest) [])
      rw [suggestLoop_append more rest p [] h]

/-- Witness for C6 (Scenario E): with query `"pho"` and limit 3, the first
three items already yield three unique suggestions, so a fourth matching
item (`"Photon"`) contributes nothing. -/
theorem claim_C6_witness :
    getSearchSuggestions "pho"
        ([⟨"Phone", "", "", "", 0, true⟩, ⟨"Photo", "", "", "", 0, true⟩,
          ⟨"Phoenix", "", "", "", 0, true⟩] ++ [⟨"Photon", "", "", "", 0, true⟩]) 3
      = getSearchSuggestions "pho"
          [⟨"Phone", "", "", "", 0, true⟩, ⟨"Photo", "", "", "", 0, true⟩,
            ⟨"Phoenix", "", "", "", 0, true⟩] 3 :=
  claim_C6_theorem "pho"
    [⟨"Phone", "", "", "", 0, true⟩, ⟨"Photo", "", "", "", 0, true⟩,
      ⟨"Phoenix", "", "", "", 0, true⟩]
    [⟨"Photon", "", "", "", 0, true⟩] 3 (by decide)

/-! ### C5: the result list is sorted and truncated -/

theorem lexLe_total : ∀ a b : List Char, (lexLe a b || lexLe b a) = true := by
  intro a
  induction a with
  | nil => intro b; simp [lexLe]
  | cons x xs ih =>
    intro b
    rcases b with _ | ⟨y, ys⟩
    · simp [lexLe]
    · by_cases hxy : x = y
      · subst hxy
        simp only [lexLe, if_pos rfl]
        exact ih ys
      · have hyx : y ≠ x := fun h => hxy h.symm
        simp only [lexLe, if_neg hxy, if_neg hyx]
        rcases lt_trichotomy x y with h | h | h
        · simp [h]
        · exact absurd h hxy
        · simp [h]

theorem lexLe_trans : ∀ a b c : List Char,
    lexLe a b = true → lexLe b c = true → lexLe a c = true := by
  intro a
  induction a with
  | nil => intro b c _ _; rfl
  | cons x xs ih =>
    intro b c h1 h2
    rcases b with _ | ⟨y, ys⟩
    · simp [lexLe] at h1
    · rcases c with _ | ⟨z, zs⟩
      · simp [lexLe] at h2
      · by_cases hxy : x = y <;> by_cases hyz : y = z
        · subst hxy; subst hyz
          simp only [lexLe, if_pos rfl] at h1 h2 ⊢
          exact ih ys zs h1 h2
        · subst hxy
          simp only [lexLe, if_neg hyz] at h2
          simp only [lexLe, if_neg hyz]
          exact h2
        · subst hyz
          simp only [lexLe, if_neg hxy] at h1
          simp only [lexLe, if_neg hxy]
          exact h1
        · simp only [lexLe, if_neg hxy] at h1
          simp only [lexLe, if_neg hyz] at h2
          rw [decide_eq_true_eq] at h1 h2
          have hxz : x < z := lt_trans h1 h2
          simp only [lexLe, if_neg (ne_of_lt hxz)]
          simpa using hxz

theorem resultLE_total : ∀ a b : SearchResult, (resultLE a b || resultLE b a) = true := by
  intro a b
  by_cases hs : a.score = b.score
  · simp only [resultLE, if_pos hs, if_pos hs.symm]
    exact lexLe_total _ _
  · have hs' : ¬b.score = a.score := fun h => hs h.symm
    simp only [resultLE, if_neg hs, if_neg hs']
    rcases lt_trichotomy a.score b.score with h | h | h
    · simp [h]
    · exact absurd h hs
    · simp [h]

theorem resultLE_trans : ∀ a b c : SearchResult,
    resultLE a b = true → resultLE b c = true → resultLE a c = true := by
  intro a b c h1 h2
  by_cases hab : a.score = b.score <;> by_cases hbc : b.score = c.score
  · have hac : a.score = c.score := hab.trans hbc
    simp only [resultLE, if_pos hab] at h1
    simp only [resultLE, if_pos hbc] at h2
    simp only [resultLE, if_pos hac]
    exact lexLe_trans _ _ _ h1 h2
  · simp only [resultLE, if_neg hbc] at h2
    rw [decide_eq_true_eq] at h2
    have hac : ¬a.score = c.score := by rw [hab]; exact fun h => hbc h
    simp only [resultLE, if_neg hac]
    rw [decide_eq_true_eq]
    rw [hab]
    exact h2
  · simp only [resultLE, if_neg hab] at h1
    rw [decide_eq_true_eq] at h1
    have hac : ¬a.score = c.score := by
      rw [← hbc]
      exact fun h => hab h
    simp only [resultLE, if_neg hac]
    rw [decide_eq_true_eq]
    rw [← hbc]
    exact h1
  · simp only [resultLE, if_neg hab] at h1
    simp only [resultLE, if_neg hbc] at h2
    rw [decide_eq_true_eq] at h1 h2
    have hca : c.score < a.score := lt_trans h2 h1
    simp only [resultLE, if_neg (ne_of_gt hca)]
    simpa using hca

/-- **C5.** The list returned by `searchProducts` is sorted in descending
order of score, entries with equal score appear in ascending order of the
name comparison, and the returned list is the first `n` entries of the full
sorted order (which, being a pure function of the inputs, is deterministic
for identical input ordering). -/
theorem claim_C5_theorem (q : String) (ps : List Product) (n : Nat) :
    (searchProducts q ps n).Pairwise (fun a b =>
        b.score < a.score ∨
          (a.score = b.score ∧ lexLe a.product.name.data b.product.name.data = true)) ∧
      searchProducts q ps n = (searchProducts q ps ps.length).take n := by
  by_cases hg : (trimStr q).length = 0
  · constructor
    · simp [searchProducts, hg]
    · simp [searchProducts, hg]
  · have hunf : ∀ m, searchProducts q ps m
        = (((ps.map (scoreProduct (normalizeQuery q) (queryWordsOf q))).filter
            (fun r => decide (0 < r.score))).mergeSort resultLE).take m := by
      intro m
      simp only [searchProducts, if_neg hg]
    constructor
    · rw [hunf n]
      apply List.Pairwise.sublist (List.take_sublist n _)
      apply List.Pairwise.imp _
        (List.sorted_mergeSort resultLE_trans resultLE_total
          ((ps.map (scoreProduct (normalizeQuery q) (queryWordsOf q))).filter
            (fun r => decide (0 < r.score))))
      intro a b h
      by_cases hs : a.score = b.score
      · simp only [resultLE, if_pos hs] at h
        exact Or.inr ⟨hs, h⟩
      · simp only [resultLE, if_neg hs] at h
        rw [decide_eq_true_eq] at h
        exact Or.inl h
    · have hlen : (((ps.map (scoreProduct (normalizeQuery q) (queryWordsOf q))).filter
            (fun r => decide (0 < r.score))).mergeSort resultLE).length ≤ ps.length := by
        rw [List.length_mergeSort]
        calc ((ps.map (scoreProduct (normalizeQuery q) (queryWordsOf q))).filter
                (fun r => decide (0 < r.score))).length
            ≤ (ps.map (scoreProduct (normalizeQuery q) (queryWordsOf q))).length :=
              List.length_filter_le _ _
          _ = ps.length := List.length_map _ _
      rw [hunf n, hunf ps.length, List.take_of_length_le hlen]

/-! ### C4: Scenario C — "logitech mouse" against the Logitech Wireless Mouse -/

/-- The in-stock and rating bonuses separate additively from the rest of the
score, which depends only on the four text fields. -/
theorem scoreProduct_rating_split (nq : String) (qws : List String)
    (n b d c : String) (r : ℚ) (st : Bool) :
    (scoreProduct nq qws ⟨n, b, d, c, r, st⟩).score
      = (scoreProduct nq qws ⟨n, b, d, c, 0, false⟩).score
        + (if st then (10 : ℚ) else 0) + r * 2 := by
  simp only [scoreProduct]
  cases st <;> simp

/-- **C4.** For the item with name `"Wireless Mouse"`, brand `"Logitech"`
(description and category empty) and the two-word query `"logitech mouse"`,
the search awards +50 for the word `"mouse"` in the name, +30 for the word
`"logitech"` in the brand, and the +50 all-words bonus — no other credit —
so the final score is exactly `130 + (10 if inStock) + 2 × rating`, for
every rating and stock state. -/
theorem claim_C4_theorem (r : ℚ) (st : Bool) :
    (scoreFor "logitech mouse" ⟨"Wireless Mouse", "Logitech", "", "", r, st⟩).score
      = 130 + (if st then (10 : ℚ) else 0) + 2 * r := by
  have hbase : (scoreProduct (normalizeQuery "logitech mouse")
      (queryWordsOf "logitech mouse")
      ⟨"Wireless Mouse", "Logitech", "", "", 0, false⟩).score = 130 := by
    with_unfolding_all rfl
  unfold scoreFor
  rw [scoreProduct_rating_split, hbase]
  cases st <;> simp <;> ring

/-! ### C1: items with no textual match at all -/

theorem includes_empty (s : String) : includes s "" = true :=
  includes_iff.mpr List.nil_infix

theorem trimL_eq_nil_iff {l : List Char} :
    trimL l = [] ↔ ∀ c ∈ l, c.isWhitespace = true := by
  constructor
  · intro h c hc
    by_contra hcw
    rw [← Bool.not_eq_false, not_not] at hcw
    -- `c` survives the left trim, so the trimmed string cannot be empty
    have hcd : c ∈ l.dropWhile Char.isWhitespace := by
      rcases List.mem_append.mp
          ((List.takeWhile_append_dropWhile Char.isWhitespace l) ▸ hc) with h1 | h1
      · exact absurd (List.mem_takeWhile_imp h1) (by rw [hcw]; simp)
      · exact h1
    unfold trimL at h
    rw [List.reverse_eq_nil_iff, List.dropWhile_eq_nil_iff] at h
    have := h c (by rw [List.mem_reverse]; exact hcd)
    rw [hcw] at this
    exact absurd this (by simp)
  · exact trimL_of_all_whitespace

/-- If the normalized query fails the `includes` test on any field, the
query guard cannot have fired (a trimmed-empty query is contained in
everything). -/
theorem guard_ne_of_not_includes {q f : String}
    (hn : includes f (normalizeQuery q) = false) : (trimStr q).length ≠ 0 := by
  intro h0
  have hws : ∀ c ∈ q.data, c.isWhitespace = true := by
    have : trimL q.data = [] := List.length_eq_zero.mp h0
    exact trimL_eq_nil_iff.mp this
  have hnq : normalizeQuery q = "" := by
    apply congrArg String.mk
    apply trimL_of_all_whitespace
    intro c hc
    rcases List.mem_map.mp hc with ⟨d, hd, rfl⟩
    rw [toLower_isWhitespace]
    exact hws d hd
  rw [hnq, includes_empty] at hn
  exact absurd hn (by simp)

/-- If no query word matches any field, the word loop is the identity. -/
theorem wordLoop_no_match {name brand description category : String}
    {qws : List String}
    (h : ∀ w ∈ qws, includes name w = false ∧ includes brand w = false ∧
      includes description w = false ∧ includes category w = false) :
    ∀ acc, wordLoop name brand description category qws acc = acc := by
  induction qws with
  | nil => intro acc; rfl
  | cons w ws ih =>
    intro acc
    obtain ⟨h1, h2, h3, h4⟩ := h w (List.mem_cons_self w ws)
    rcases acc with ⟨s, m, mf⟩
    show wordLoop name brand description category (w :: ws) (s, m, mf) = _
    unfold wordLoop
    rw [h1, h2, h3, h4]
    simp only [Bool.false_eq_true, if_false]
    exact ih (fun x hx => h x (List.mem_cons_of_mem w hx)) (s, m, mf)

/-- With no containment and no fuzzy match, the name tier contributes
nothing. -/
theorem nameTier_none {name nq : String} (hn : includes name nq = false)
    (hf : fuzzyMatch name nq = false) :
    nameTier name nq = (0, MatchType.fuzzy, []) := by
  have h1 : ¬name = nq := by
    intro e
    subst e
    rw [includes_refl] at hn
    exact absurd hn (by simp)
  have h2 : startsWithStr name nq = false := by
    cases hsw : startsWithStr name nq
    · rfl
    · rw [includes_of_startsWith hsw] at hn
      exact absurd hn (by simp)
  unfold nameTier
  rw [if_neg h1, h2, hn, hf]
  simp

theorem brandBonus_none {brand nq : String} (hb : includes brand nq = false)
    (mf : List String) : brandBonus brand nq mf = (0, mf) := by
  have h1 : ¬brand = nq := by
    intro e
    subst e
    rw [includes_refl] at hb
    exact absurd hb (by simp)
  unfold brandBonus
  rw [if_neg h1, hb]
  simp

/-- Every result returned by `searchProducts` is the score record of some
catalog item, and has positive score. -/
theorem mem_searchProducts {q : String} {ps : List Product} {n : Nat}
    {r : SearchResult} (h : r ∈ searchProducts q ps n) :
    (∃ x ∈ ps, r = scoreFor q x) ∧ 0 < r.score := by
  unfold searchProducts at h
  split at h
  · simp at h
  · have h1 := List.mem_mergeSort.mp (List.mem_of_mem_take h)
    rw [List.mem_filter] at h1
    obtain ⟨hmem, hpos⟩ := h1
    rcases List.mem_map.mp hmem with ⟨x, hx, rfl⟩
    rw [decide_eq_true_eq] at hpos
    exact ⟨⟨x, hx, rfl⟩, hpos⟩

/-- **C1 (amended).** For every catalog item and query such that no field
contains the normalized query or any of its whitespace-split words and the
name fails the subsequence-fuzzy test, `searchProducts` assigns the item
the score `(10 if inStock else 0) + 2 × rating` with empty `matchedFields`,
and the item is excluded from the returned list iff that score is not
positive — an in-stock or positively-rated item is still returned. -/
theorem claim_C1_amended_theorem (q : String) (p : Product)
    (hn : includes (lowerStr p.name) (normalizeQuery q) = false)
    (hb : includes (lowerStr p.brand) (normalizeQuery q) = false)
    (hd : includes (lowerStr p.description) (normalizeQuery q) = false)
    (hc : includes (lowerStr p.category) (normalizeQuery q) = false)
    (hf : fuzzyMatch (lowerStr p.name) (normalizeQuery q) = false)
    (hw : ∀ w ∈ queryWordsOf q,
      includes (lowerStr p.name) w = false ∧ includes (lowerStr p.brand) w = false ∧
      includes (lowerStr p.description) w = false ∧
      includes (lowerStr p.category) w = false) :
    (scoreFor q p).score = (if p.inStock then (10 : ℚ) else 0) + p.rating * 2 ∧
      (scoreFor q p).matchedFields = [] ∧
      (∀ ps n r, r ∈ searchProducts q ps n → r.product = p → 0 < (scoreFor q p).score) ∧
      (∀ n, 0 < n → searchProducts q [p] n
        = if 0 < (scoreFor q p).score then [scoreFor q p] else []) := by
  have htier := nameTier_none hn hf
  have hloop0 := wordLoop_no_match hw ((0 : ℚ), (0 : Nat), ([] : List String))
  have hbb := brandBonus_none hb ([] : List String)
  have hbon : allWordsBonus (queryWordsOf q) 0 = 0 := by
    unfold allWordsBonus
    split
    · next hcond =>
      exfalso
      omega
    · rfl
  have hscore : scoreFor q p =
      { product := p,
        score := (if p.inStock then (0 : ℚ) + 0 + 0 + 0 + 0 + 10
          else (0 : ℚ) + 0 + 0 + 0 + 0) + p.rating * 2,
        matchType := MatchType.fuzzy, matchedFields := [] } := by
    unfold scoreFor scoreProduct
    simp only [htier, hloop0, hbb, hbon, descBonus, catBonus, hd, hc,
      Bool.false_eq_true, if_false, add_zero]
  refine ⟨?_, ?_, ?_, ?_⟩
  · rw [hscore]
    split <;> ring
  · rw [hscore]
  · intro ps n r hr hrp
    obtain ⟨⟨x, _, rfl⟩, hpos⟩ := mem_searchProducts hr
    have hxp : x = p := hrp
    rw [← hxp]
    exact hpos
  · intro n hn0
    have hg := guard_ne_of_not_includes hn
    unfold searchProducts
    rw [if_neg hg]
    show List.take n ((List.filter _ [scoreFor q p]).mergeSort resultLE) = _
    by_cases hpos : 0 < (scoreFor q p).score
    · rw [if_pos hpos]
      have : List.filter (fun r => decide (0 < r.score)) [scoreFor q p]
          = [scoreFor q p] := by
        simp [List.filter, hpos]
      rw [this]
      have hms : ([scoreFor q p].mergeSort resultLE) = [scoreFor q p] := by
        simp
      rw [hms]
      exact List.take_of_length_le (by simpa using hn0)
    · rw [if_neg hpos]
      have : List.filter (fun r => decide (0 < r.score)) [scoreFor q p] = [] := by
        simp [List.filter, hpos]
      rw [this]
      simp

/-- **C1 counterexample.** The claim as stated is false on the code: for the
query `"xyz123notfound"` and an item with no overlapping text but
`inStock = true` and rating 5, the final score is 20 (not 0) and the item
IS returned (with empty `matchedFields`). -/
theorem claim_C1_counterexample :
    (searchProducts "xyz123notfound" [⟨"abc", "", "", "", 5, true⟩] 10).length = 1 ∧
      (scoreFor "xyz123notfound" ⟨"abc", "", "", "", 5, true⟩).score = 20 ∧
      (scoreFor "xyz123notfound" ⟨"abc", "", "", "", 5, true⟩).matchedFields = [] := by
  refine ⟨?_, ?_, ?_⟩ <;> with_unfolding_all rfl

/-- Witness for the amended C1 at the Scenario D query. -/
theorem claim_C1_witness :
    (scoreFor "xyz123notfound" ⟨"abc", "", "", "", 5, true⟩).score
        = (if (true : Bool) then (10 : ℚ) else 0) + 5 * 2 ∧
      (scoreFor "xyz123notfound" ⟨"abc", "", "", "", 5, true⟩).matchedFields = [] := by
  have h := claim_C1_amended_theorem "xyz123notfound" ⟨"abc", "", "", "", 5, true⟩
    (by with_unfolding_all decide) (by with_unfolding_all decide)
    (by with_unfolding_all decide) (by with_unfolding_all decide)
    (by with_unfolding_all decide) (by with_unfolding_all decide)
  exact ⟨h.1, h.2.1⟩

/-! ### C3: what the two-pointer fuzzy scan actually computes -/

theorem fuzzyScan_le (s : List Char) : ∀ q : List Char, fuzzyScan s q ≤ q.length := by
  induction s with
  | nil => intro q; rcases q with _ | ⟨a, qs⟩ <;> simp [fuzzyScan]
  | cons c s ih =>
    intro q
    rcases q with _ | ⟨a, qs⟩
    · simp [fuzzyScan]
    · unfold fuzzyScan
      split
      · simpa using ih qs
      · calc fuzzyScan s (a :: qs) ≤ (a :: qs).length := ih (a :: qs)
          _ = (a :: qs).length := rfl

theorem fuzzyScan_nil (s : List Char) : fuzzyScan s [] = 0 := by
  cases s <;> rfl

/-- Prepending a query character costs the scan at most one matched
character. -/
theorem fuzzyScan_cons_le (s : List Char) :
    ∀ (q : List Char) (a : Char), fuzzyScan s (a :: q) ≤ fuzzyScan s q + 1 := by
  induction s with
  | nil => intro q a; simp [fuzzyScan]
  | cons c s ih =>
    intro q a
    by_cases hca : c = a
    · subst hca
      show (if c = c then fuzzyScan s q + 1 else fuzzyScan s (c :: q))
          ≤ fuzzyScan (c :: s) q + 1
      rw [if_pos rfl]
      rcases q with _ | ⟨b, qs⟩
      · simp [fuzzyScan, fuzzyScan_nil]
      · show fuzzyScan s (b :: qs) + 1
            ≤ (if c = b then fuzzyScan s qs + 1 else fuzzyScan s (b :: qs)) + 1
        split
        · next hcb =>
          subst hcb
          exact Nat.add_le_add_right (ih qs c) 1
        · exact le_refl _
    · show (if c = a then fuzzyScan s q + 1 else fuzzyScan s (a :: q))
          ≤ fuzzyScan (c :: s) q + 1
      rw [if_neg hca]
      rcases q with _ | ⟨b, qs⟩
      · show fuzzyScan s [a] ≤ fuzzyScan (c :: s) [] + 1
        have := fuzzyScan_le s [a]
        simp only [List.length_singleton] at this
        calc fuzzyScan s [a] ≤ 1 := this
          _ ≤ fuzzyScan (c :: s) [] + 1 := by omega
      · show fuzzyScan s (a :: b :: qs)
            ≤ (if c = b then fuzzyScan s qs + 1 else fuzzyScan s (b :: qs)) + 1
        split
        · next hcb =>
          subst hcb
          calc fuzzyScan s (a :: c :: qs) ≤ fuzzyScan s (c :: qs) + 1 := ih _ a
            _ ≤ fuzzyScan s qs + 1 + 1 := Nat.add_le_add_right (ih qs c) 1
        · exact ih (b :: qs) a

/-- The prefix of the query matched by the greedy scan really is a
subsequence of the candidate. -/
theorem take_fuzzyScan_sublist (s : List Char) :
    ∀ q : List Char, (q.take (fuzzyScan s q)).Sublist s := by
  induction s with
  | nil =>
    intro q
    rcases q with _ | ⟨a, qs⟩ <;> simp [fuzzyScan]
  | cons c s ih =>
    intro q
    rcases q with _ | ⟨a, qs⟩
    · simp [fuzzyScan]
    · by_cases hca : c = a
      · subst hca
        show ((c :: qs).take (if c = c then fuzzyScan s qs + 1
            else fuzzyScan s (c :: qs))).Sublist (c :: s)
        rw [if_pos rfl]
        rw [List.take_succ_cons]
        exact (ih qs).cons₂ c
      · show ((a :: qs).take (if c = a then fuzzyScan s qs + 1
            else fuzzyScan s (a :: qs))).Sublist (c :: s)
        rw [if_neg hca]
        exact (ih (a :: qs)).cons c

/-- Conversely, the scan is optimal: if a length-`n` prefix of the query
embeds in the candidate, the scan matches at least `min n q.length`
characters. -/
theorem le_fuzzyScan_of_take_sublist (s : List Char) :
    ∀ (q : List Char) (n : Nat), (q.take n).Sublist s →
      min n q.length ≤ fuzzyScan s q := by
  induction s with
  | nil =>
    intro q n h
    rw [List.sublist_nil] at h
    have := congrArg List.length h
    rw [List.length_take] at this
    simp only [List.length_nil] at this
    rw [this]
    exact Nat.zero_le _
  | cons c s ih =>
    intro q n h
    rcases q with _ | ⟨a, qs⟩
    · simp
    · rcases n with _ | m
      · simp
    -- n = m+1, q = a :: qs
      rw [List.take_succ_cons] at h
      by_cases hca : c = a
      · subst hca
        cases h with
        | cons _ h' =>
          have h1 := ih (c :: qs) (m + 1) (by rw [List.take_succ_cons]; exact h')
          calc min (m + 1) (c :: qs).length ≤ fuzzyScan s (c :: qs) := h1
            _ ≤ fuzzyScan s qs + 1 := fuzzyScan_cons_le s qs c
            _ = fuzzyScan (c :: s) (c :: qs) := by
                show _ = if c = c then fuzzyScan s qs + 1 else _
                rw [if_pos rfl]
        | cons₂ _ h' =>
          have h1 := ih qs m h'
          show min (m + 1) (qs.length + 1)
              ≤ if c = c then fuzzyScan s qs + 1 else fuzzyScan s (c :: qs)
          rw [if_pos rfl, Nat.succ_min_succ]
          exact Nat.add_le_add_right h1 1
      · have h' : (a :: qs.take m).Sublist s := by
          cases h with
          | cons _ h' => exact h'
          | cons₂ _ h' => exact absurd rfl hca
        have h1 := ih (a :: qs) (m + 1) (by rw [List.take_succ_cons]; exact h')
        show min (m + 1) (a :: qs).length
            ≤ if c = a then fuzzyScan s qs + 1 else fuzzyScan s (a :: qs)
        rw [if_neg hca]
        exact h1

/-- `fuzzyThreshold` never exceeds the query length. -/
theorem fuzzyThreshold_le (n : Nat) : fuzzyThreshold n ≤ n := by
  unfold fuzzyThreshold
  omega


/-- **C3 counterexample.** The claim's iff fails: for candidate
`"bcdefghij"` and query `"abcdefghij"`, nine of the query's ten characters
appear in order in the candidate (threshold is 7), yet `fuzzyMatch` returns
`false`, because the greedy forward scan counts only the longest *prefix* of
the query embeddable in the candidate, and the first character `'a'` never
matches. -/
theorem claim_C3_counterexample :
    ¬ (fuzzyMatch "bcdefghij" "abcdefghij" = true ↔
        2 ≤ ("abcdefghij" : String).length ∧
          subseqCover "bcdefghij" "abcdefghij"
            (fuzzyThreshold ("abcdefghij" : String).length)) := by
  intro h
  have hspec : 2 ≤ ("abcdefghij" : String).length ∧
      subseqCover "bcdefghij" "abcdefghij"
        (fuzzyThreshold ("abcdefghij" : String).length) := by
    refine ⟨by decide, ⟨("bcdefghij" : String).data, by decide, by decide, by decide⟩⟩
  have hcode : fuzzyMatch "bcdefghij" "abcdefghij" = false := by decide
  rw [h.mpr hspec] at hcode
  exact absurd hcode (by simp)

/-- **C3 (amended).** The subsequence-fuzzy test returns `true` iff the
query's length is at least 2 and the *first* `ceil(0.7 × query.length)`
characters of the query — its prefix of the threshold length, the characters
covered by the single forward two-pointer scan — appear as a
not-necessarily-contiguous ordered subsequence of the candidate. -/
theorem claim_C3_amended_theorem (str q : String) :
    fuzzyMatch str q = true ↔
      2 ≤ q.length ∧ (q.data.take (fuzzyThreshold q.length)).Sublist str.data := by
  unfold fuzzyMatch
  by_cases h2 : q.length < 2
  · rw [if_pos h2]
    constructor
    · intro h
      exact absurd h (by simp)
    · rintro ⟨h, _⟩
      omega
  · rw [if_neg h2]
    rw [decide_eq_true_eq]
    constructor
    · intro h
      refine ⟨by omega, ?_⟩
      have hA := take_fuzzyScan_sublist str.data q.data
      have heq : q.data.take (fuzzyThreshold q.length)
          = (q.data.take (fuzzyScan str.data q.data)).take (fuzzyThreshold q.length) := by
        rw [List.take_take, min_eq_left h]
      rw [heq]
      exact (List.take_sublist _ _).trans hA
    · rintro ⟨_, hsub⟩
      have hB := le_fuzzyScan_of_take_sublist str.data q.data
        (fuzzyThreshold q.length) hsub
      have hk : fuzzyThreshold q.length ≤ q.data.length := fuzzyThreshold_le _
      rw [min_eq_left hk] at hB
      exact hB

/-! ### C2: appending to an exactly-matching query -/


theorem extendLast_length (s : List Char) :
    ∀ ws : List (List Char), ws ≠ [] → (extendLast ws s).length = ws.length := by
  intro ws
  induction ws with
  | nil => intro h; exact absurd rfl h
  | cons w ws ih =>
    intro _
    rcases ws with _ | ⟨v, ws⟩
    · rfl
    · show (w :: extendLast (v :: ws) s).length = _
      simp only [List.length_cons]
      rw [ih (by simp)]
      simp

/-- A run of non-whitespace characters forms a single word, continuing the
current accumulator. -/
theorem wordsAux_all_nonWs :
    ∀ (l cur : List Char), (∀ c ∈ l, c.isWhitespace = false) →
      (cur ≠ [] ∨ l ≠ []) → wordsAux l cur = [cur.reverse ++ l] := by
  intro l
  induction l with
  | nil =>
    intro cur _ hne
    rcases hne with h | h
    · show (if cur.isEmpty then [] else [cur.reverse]) = _
      rw [if_neg (by simpa using h)]
      simp
    · exact absurd rfl h
  | cons c cs ih =>
    intro cur hws _
    have hc : c.isWhitespace = false := hws c (by simp)
    show (if c.isWhitespace = true then _ else wordsAux cs (c :: cur)) = _
    rw [hc]
    simp only [Bool.false_eq_true, if_false]
    rw [ih (c :: cur) (fun x hx => hws x (by simp [hx])) (Or.inl (by simp))]
    simp

theorem wordsAux_ne_nil :
    ∀ (l cur : List Char),
      (cur ≠ [] ∨ ∃ c ∈ l, c.isWhitespace = false) → wordsAux l cur ≠ [] := by
  intro l
  induction l with
  | nil =>
    intro cur hne
    rcases hne with h | ⟨c, hc, _⟩
    · show (if cur.isEmpty then [] else [cur.reverse]) ≠ []
      rw [if_neg (by simpa using h)]
      simp
    · simp at hc
  | cons c cs ih =>
    intro cur hne
    by_cases hw : c.isWhitespace = true
    · show (if c.isWhitespace = true then
          (if cur.isEmpty then wordsAux cs [] else cur.reverse :: wordsAux cs [])
          else _) ≠ []
      rw [if_pos hw]
      by_cases hcur : cur.isEmpty = true
      · rw [if_pos hcur]
        apply ih
        right
        rcases hne with h | ⟨d, hd, hdw⟩
        · exact absurd (List.isEmpty_iff.mp hcur) h
        · rcases List.mem_cons.mp hd with rfl | hd'
          · rw [hw] at hdw
            exact absurd hdw (by simp)
          · exact ⟨d, hd', hdw⟩
      · rw [if_neg hcur]
        simp
    · show (if c.isWhitespace = true then _
          else wordsAux cs (c :: cur)) ≠ []
      rw [if_neg hw]
      exact ih (c :: cur) (Or.inl (by simp))

theorem extendLast_cons {w : List Char} {ws : List (List Char)}
    (h : ws ≠ []) (s : List Char) :
    extendLast (w :: ws) s = w :: extendLast ws s := by
  rcases ws with _ | ⟨v, ws⟩
  · exact absurd rfl h
  · rfl

/-- Appending a nonempty whitespace-free tail to a string that does not end
in whitespace extends its last word. -/
theorem wordsAux_append {s : List Char} (hs : ∀ c ∈ s, c.isWhitespace = false)
    (hsne : s ≠ []) :
    ∀ (l cur : List Char),
      (∀ (h : l ≠ []), (l.getLast h).isWhitespace = false) →
      wordsAux (l ++ s) cur = extendLast (wordsAux l cur) s := by
  intro l
  induction l with
  | nil =>
    intro cur _
    rw [List.nil_append]
    rw [wordsAux_all_nonWs s cur hs (Or.inr hsne)]
    show _ = extendLast (if cur.isEmpty then [] else [cur.reverse]) s
    by_cases hcur : cur.isEmpty = true
    · rw [if_pos hcur, List.isEmpty_iff.mp hcur]
      rfl
    · rw [if_neg hcur]
      rfl
  | cons c cs ih =>
    intro cur hlast
    by_cases hw : c.isWhitespace = true
    · -- `c` is whitespace, so the remainder `cs` is nonempty and keeps the
      -- last character of the word list
      have hcs : cs ≠ [] := by
        intro h
        subst h
        have := hlast (by simp)
        simp only [List.getLast_singleton] at this
        rw [hw] at this
        exact absurd this (by simp)
      have hlast' : ∀ (h : cs ≠ []), (cs.getLast h).isWhitespace = false := by
        intro h
        have := hlast (by simp)
        rwa [List.getLast_cons h] at this
      have hmem : ∃ d ∈ cs, d.isWhitespace = false :=
        ⟨cs.getLast hcs, List.getLast_mem hcs, hlast' hcs⟩
      show (if c.isWhitespace = true then
          (if cur.isEmpty then wordsAux (cs ++ s) []
            else cur.reverse :: wordsAux (cs ++ s) [])
          else _)
          = extendLast (wordsAux (c :: cs) cur) s
      rw [if_pos hw]
      have hrhs : wordsAux (c :: cs) cur
          = (if cur.isEmpty then wordsAux cs [] else cur.reverse :: wordsAux cs []) := by
        show (if c.isWhitespace = true then _ else _) = _
        rw [if_pos hw]
      rw [hrhs]
      by_cases hcur : cur.isEmpty = true
      · rw [if_pos hcur, if_pos hcur]
        exact ih [] hlast'
      · rw [if_neg hcur, if_neg hcur]
        rw [extendLast_cons (wordsAux_ne_nil cs [] (Or.inr hmem)) s]
        rw [ih [] hlast']
    · have hlast' : ∀ (h : cs ≠ []), (cs.getLast h).isWhitespace = false := by
        intro h
        have := hlast (by simp)
        rwa [List.getLast_cons h] at this
      show (if c.isWhitespace = true then _ else wordsAux (cs ++ s) (c :: cur))
          = extendLast (wordsAux (c :: cs) cur) s
      rw [if_neg hw]
      have hrhs : wordsAux (c :: cs) cur = wordsAux cs (c :: cur) := by
        show (if c.isWhitespace = true then _ else _) = _
        rw [if_neg hw]
      rw [hrhs]
      exact ih (c :: cur) hlast'



/-- The word loop accumulates exactly the per-word credits and the count of
matched words. -/
theorem wordLoop_spec (n b d c : String) :
    ∀ (qws : List String) (s : ℚ) (m : Nat) (mf : List String),
      (wordLoop n b d c qws (s, m, mf)).1
          = s + ((qws.map (wordCredit n b d c)).sum) ∧
        (wordLoop n b d c qws (s, m, mf)).2.1
          = m + qws.countP (wordMatched n b d c) := by
  intro qws
  induction qws with
  | nil => intro s m mf; simp [wordLoop]
  | cons w ws ih =>
    intro s m mf
    show (wordLoop n b d c (w :: ws) (s, m, mf)).1 = _ ∧ _
    unfold wordLoop
    have hsum : ((w :: ws).map (wordCredit n b d c)).sum
        = wordCredit n b d c w + ((ws.map (wordCredit n b d c)).sum) := by
      simp
    have hcnt : (w :: ws).countP (wordMatched n b d c)
        = ws.countP (wordMatched n b d c)
          + (if wordMatched n b d c w = true then 1 else 0) :=
      List.countP_cons _ _ _
    by_cases h1 : includes n w = true
    · rw [h1]
      simp only [if_true]
      obtain ⟨hf, hc⟩ := ih (s + 50) (m + 1) (pushField mf "name")
      refine ⟨?_, ?_⟩
      · rw [hf, hsum]
        have : wordCredit n b d c w = 50 := by unfold wordCredit; rw [h1]; simp
        rw [this]
        ring
      · rw [hc, hcnt]
        have : wordMatched n b d c w = true := by
          unfold wordMatched
          rw [h1]
          simp
        rw [this]
        simp
        omega
    · rw [Bool.not_eq_true] at h1
      rw [h1]
      simp only [Bool.false_eq_true, if_false]
      by_cases h2 : includes b w = true
      · rw [h2]
        simp only [if_true]
        obtain ⟨hf, hc⟩ := ih (s + 30) (m + 1) (pushField mf "brand")
        refine ⟨?_, ?_⟩
        · rw [hf, hsum]
          have : wordCredit n b d c w = 30 := by
            unfold wordCredit
            rw [h1, h2]
            simp
          rw [this]
          ring
        · rw [hc, hcnt]
          have : wordMatched n b d c w = true := by
            unfold wordMatched
            rw [h2]
            simp
          rw [this]
          simp
          omega
      · rw [Bool.not_eq_true] at h2
        rw [h2]
        simp only [Bool.false_eq_true, if_false]
        by_cases h3 : includes d w = true
        · rw [h3]
          simp only [if_true]
          obtain ⟨hf, hc⟩ := ih (s + 20) (m + 1) (pushField mf "description")
          refine ⟨?_, ?_⟩
          · rw [hf, hsum]
            have : wordCredit n b d c w = 20 := by
              unfold wordCredit
              rw [h1, h2, h3]
              simp
            rw [this]
            ring
          · rw [hc, hcnt]
            have : wordMatched n b d c w = true := by
              unfold wordMatched
              rw [h3]
              simp
            rw [this]
            simp
            omega
        · rw [Bool.not_eq_true] at h3
          rw [h3]
          simp only [Bool.false_eq_true, if_false]
          by_cases h4 : includes c w = true
          · rw [h4]
            simp only [if_true]
            obtain ⟨hf, hc⟩ := ih (s + 15) (m + 1) (pushField mf "category")
            refine ⟨?_, ?_⟩
            · rw [hf, hsum]
              have : wordCredit n b d c w = 15 := by
                unfold wordCredit
                rw [h1, h2, h3, h4]
                simp
              rw [this]
              ring
            · rw [hc, hcnt]
              have : wordMatched n b d c w = true := by
                unfold wordMatched
                rw [h4]
                simp
              rw [this]
              simp
              omega
          · rw [Bool.not_eq_true] at h4
            rw [h4]
            simp only [Bool.false_eq_true, if_false]
            obtain ⟨hf, hc⟩ := ih s m mf
            refine ⟨?_, ?_⟩
            · rw [hf, hsum]
              have : wordCredit n b d c w = 0 := by
                unfold wordCredit
                rw [h1, h2, h3, h4]
                simp
              rw [this]
              ring
            · rw [hc, hcnt]
              have : wordMatched n b d c w = false := by
                unfold wordMatched
                rw [h1, h2, h3, h4]
                simp
              rw [this]
              simp

theorem wordCredit_nonneg (n b d c w : String) : 0 ≤ wordCredit n b d c w := by
  unfold wordCredit
  repeat' split
  all_goals norm_num

/-- Extending a word can only lower (or keep) its credit: any field
containing the longer word contains the shorter one, and earlier fields pay
more. -/
theorem wordCredit_append_le (n b d c : String) (w v : List Char) :
    wordCredit n b d c ⟨w ++ v⟩ ≤ wordCredit n b d c ⟨w⟩ := by
  by_cases g1 : includes n ⟨w⟩ = true
  · -- the shorter word already earns the maximum credit
    have hR : wordCredit n b d c ⟨w⟩ = 50 := by
      unfold wordCredit
      rw [g1]
      simp
    have hL : wordCredit n b d c ⟨w ++ v⟩ ≤ 50 := by
      unfold wordCredit
      repeat' split
      all_goals norm_num
    rw [hR]
    exact hL
  · rw [Bool.not_eq_true] at g1
    have h1 : includes n ⟨w ++ v⟩ = false := by
      cases hx : includes n ⟨w ++ v⟩
      · rfl
      · rw [includes_append_left hx] at g1
        exact absurd g1 (by simp)
    by_cases g2 : includes b ⟨w⟩ = true
    · have hR : wordCredit n b d c ⟨w⟩ = 30 := by
        unfold wordCredit
        rw [g1, g2]
        simp
      have hL : wordCredit n b d c ⟨w ++ v⟩ ≤ 30 := by
        unfold wordCredit
        rw [h1]
        simp only [Bool.false_eq_true, if_false]
        repeat' split
        all_goals norm_num
      rw [hR]
      exact hL
    · rw [Bool.not_eq_true] at g2
      have h2 : includes b ⟨w ++ v⟩ = false := by
        cases hx : includes b ⟨w ++ v⟩
        · rfl
        · rw [includes_append_left hx] at g2
          exact absurd g2 (by simp)
      by_cases g3 : includes d ⟨w⟩ = true
      · have hR : wordCredit n b d c ⟨w⟩ = 20 := by
          unfold wordCredit
          rw [g1, g2, g3]
          simp
        have hL : wordCredit n b d c ⟨w ++ v⟩ ≤ 20 := by
          unfold wordCredit
          rw [h1, h2]
          simp only [Bool.false_eq_true, if_false]
          repeat' split
          all_goals norm_num
        rw [hR]
        exact hL
      · rw [Bool.not_eq_true] at g3
        have h3 : includes d ⟨w ++ v⟩ = false := by
          cases hx : includes d ⟨w ++ v⟩
          · rfl
          · rw [includes_append_left hx] at g3
            exact absurd g3 (by simp)
        by_cases g4 : includes c ⟨w⟩ = true
        · have hR : wordCredit n b d c ⟨w⟩ = 15 := by
            unfold wordCredit
            rw [g1, g2, g3, g4]
            simp
          have hL : wordCredit n b d c ⟨w ++ v⟩ ≤ 15 := by
            unfold wordCredit
            rw [h1, h2, h3]
            simp only [Bool.false_eq_true, if_false]
            split
            all_goals norm_num
          rw [hR]
          exact hL
        · rw [Bool.not_eq_true] at g4
          have h4 : includes c ⟨w ++ v⟩ = false := by
            cases hx : includes c ⟨w ++ v⟩
            · rfl
            · rw [includes_append_left hx] at g4
              exact absurd g4 (by simp)
          have hL : wordCredit n b d c ⟨w ++ v⟩ = 0 := by
            unfold wordCredit
            rw [h1, h2, h3, h4]
            simp
          rw [hL]
          exact wordCredit_nonneg n b d c ⟨w⟩

theorem wordMatched_append {n b d c : String} {w v : List Char}
    (h : wordMatched n b d c ⟨w ++ v⟩ = true) :
    wordMatched n b d c ⟨w⟩ = true := by
  unfold wordMatched at h ⊢
  simp only [Bool.or_eq_true] at h ⊢
  rcases h with ((h | h) | h) | h
  · exact Or.inl (Or.inl (Or.inl (includes_append_left h)))
  · exact Or.inl (Or.inl (Or.inr (includes_append_left h)))
  · exact Or.inl (Or.inr (includes_append_left h))
  · exact Or.inr (includes_append_left h)

/-- Sum of credits over the word list with extended last word is at most
the original sum. -/
theorem sum_extendLast_le (n b d c : String) (v : List Char) :
    ∀ ws : List (List Char), ws ≠ [] →
      (((extendLast ws v).map fun w => wordCredit n b d c ⟨w⟩).sum)
        ≤ ((ws.map fun w => wordCredit n b d c ⟨w⟩).sum) := by
  intro ws
  induction ws with
  | nil => intro h; exact absurd rfl h
  | cons w ws ih =>
    intro _
    rcases ws with _ | ⟨u, ws⟩
    · show (([w ++ v].map fun w => wordCredit n b d c ⟨w⟩).sum) ≤ _
      simp only [List.map_cons, List.map_nil, List.sum_cons, List.sum_nil]
      have := wordCredit_append_le n b d c w v
      linarith
    · rw [extendLast_cons (by simp) v]
      simp only [List.map_cons, List.sum_cons]
      have hih := ih (by simp)
      simp only [List.map_cons, List.sum_cons] at hih
      linarith

/-- If every word of the extended list matches, every original word
matches. -/
theorem all_matched_of_extendLast {n b d c : String} {v : List Char} :
    ∀ ws : List (List Char),
      (∀ x ∈ extendLast ws v, wordMatched n b d c ⟨x⟩ = true) →
      ∀ x ∈ ws, wordMatched n b d c ⟨x⟩ = true := by
  intro ws
  induction ws with
  | nil => intro _ x hx; simp at hx
  | cons w ws ih =>
    intro h x hx
    rcases ws with _ | ⟨u, ws⟩
    · rcases List.mem_singleton.mp hx with rfl
      exact wordMatched_append (h (x ++ v) (by simp [extendLast]))
    · rw [extendLast_cons (by simp) v] at h
      rcases List.mem_cons.mp hx with rfl | hx'
      · exact h x (by simp)
      · exact ih (fun y hy => h y (List.mem_cons_of_mem _ hy)) x hx'


theorem brandBonus_fst (brand nq : String) (mf : List String) :
    (brandBonus brand nq mf).1 = brandScore brand nq := by
  unfold brandBonus brandScore
  repeat' split
  all_goals rfl

theorem descBonus_fst (description nq : String) (mf : List String) :
    (descBonus description nq mf).1 = descScore description nq := by
  unfold descBonus descScore
  split <;> rfl

theorem catBonus_fst (category nq : String) (mf : List String) :
    (catBonus category nq mf).1 = catScore category nq := by
  unfold catBonus catScore
  split <;> rfl

/-- Closed form of a product's score: name tier + word credits + all-words
bonus + brand/description/category bonuses + stock bonus + rating bonus. -/
theorem scoreProduct_score (nq : String) (qws : List String) (p : Product) :
    (scoreProduct nq qws p).score
      = (nameTier (lowerStr p.name) nq).1
        + ((qws.map (wordCredit (lowerStr p.name) (lowerStr p.brand)
            (lowerStr p.description) (lowerStr p.category))).sum)
        + allWordsBonus qws (qws.countP (wordMatched (lowerStr p.name)
            (lowerStr p.brand) (lowerStr p.description) (lowerStr p.category)))
        + brandScore (lowerStr p.brand) nq
        + descScore (lowerStr p.description) nq
        + catScore (lowerStr p.category) nq
        + (if p.inStock then (10 : ℚ) else 0) + p.rating * 2 := by
  obtain ⟨hf, hc⟩ := wordLoop_spec (lowerStr p.name) (lowerStr p.brand)
    (lowerStr p.description) (lowerStr p.category) qws
    ((nameTier (lowerStr p.name) nq).1) 0
    ((nameTier (lowerStr p.name) nq).2.2)
  unfold scoreProduct
  simp only [hf, hc, brandBonus_fst, descBonus_fst, catBonus_fst, Nat.zero_add]
  cases hst : p.inStock <;> simp

/-- When the query is strictly longer than the name, only the fuzzy branch
of the name tier can fire. -/
theorem nameTier_fst_le_of_longer {name nq : String}
    (hlen : name.data.length < nq.data.length) : (nameTier name nq).1 ≤ 100 := by
  have h1 : ¬name = nq := by
    intro e
    rw [e] at hlen
    exact lt_irrefl _ hlen
  have h2 : startsWithStr name nq = false := by
    cases hx : startsWithStr name nq
    · rfl
    · simp only [startsWithStr, decide_eq_true_eq] at hx
      have := hx.length_le
      omega
  have h3 : includes name nq = false := by
    cases hx : includes name nq
    · rfl
    · have := length_le_of_includes hx
      omega
  unfold nameTier
  rw [if_neg h1, h2, h3]
  simp only [Bool.false_eq_true, if_false]
  split <;> norm_num

theorem brandScore_nonneg (brand nq : String) : 0 ≤ brandScore brand nq := by
  unfold brandScore
  repeat' split
  all_goals norm_num

theorem descScore_nonneg (description nq : String) : 0 ≤ descScore description nq := by
  unfold descScore
  split <;> norm_num

theorem catScore_nonneg (category nq : String) : 0 ≤ catScore category nq := by
  unfold catScore
  split <;> norm_num

/-- Extending the query can raise the brand bonus by at most 100 (the
exact-brand case of the longer query implies at least the contains case of
the shorter one). -/
theorem brandScore_le (brand : String) {nq1 nq2 : String} (hpre : nq1.data <+: nq2.data) :
    brandScore brand nq2 ≤ brandScore brand nq1 + 100 := by
  by_cases h1 : brand = nq2
  · have hin : includes brand nq1 = true := by
      rw [includes_iff, h1]
      exact hpre.isInfix
    have hL : brandScore brand nq2 = 200 := by
      unfold brandScore
      rw [if_pos h1]
    have hR : (100 : ℚ) ≤ brandScore brand nq1 := by
      unfold brandScore
      by_cases hb : brand = nq1
      · rw [if_pos hb]
        norm_num
      · rw [if_neg hb, hin]
        simp
    rw [hL]
    linarith
  · by_cases h2 : includes brand nq2 = true
    · have hin : includes brand nq1 = true := by
        rw [includes_iff] at h2 ⊢
        exact hpre.isInfix.trans h2
      have hL : brandScore brand nq2 ≤ 100 := by
        unfold brandScore
        rw [if_neg h1, h2]
        simp
      have hR : (100 : ℚ) ≤ brandScore brand nq1 := by
        unfold brandScore
        by_cases hb : brand = nq1
        · rw [if_pos hb]
          norm_num
        · rw [if_neg hb, hin]
          simp
      linarith
    · have hL : brandScore brand nq2 = 0 := by
        unfold brandScore
        rw [if_neg h1]
        rw [Bool.not_eq_true] at h2
        rw [h2]
        simp
      rw [hL]
      have := brandScore_nonneg brand nq1
      linarith

theorem descScore_le (description : String) {nq1 nq2 : String} (hpre : nq1.data <+: nq2.data) :
    descScore description nq2 ≤ descScore description nq1 := by
  by_cases h : includes description nq2 = true
  · have hin : includes description nq1 = true := by
      rw [includes_iff] at h ⊢
      exact hpre.isInfix.trans h
    unfold descScore
    rw [h, hin]
  · rw [Bool.not_eq_true] at h
    have hL : descScore description nq2 = 0 := by
      unfold descScore
      rw [h]
      simp
    rw [hL]
    exact descScore_nonneg description nq1

theorem catScore_le (category : String) {nq1 nq2 : String} (hpre : nq1.data <+: nq2.data) :
    catScore category nq2 ≤ catScore category nq1 := by
  by_cases h : includes category nq2 = true
  · have hin : includes category nq1 = true := by
      rw [includes_iff] at h ⊢
      exact hpre.isInfix.trans h
    unfold catScore
    rw [h, hin]
  · rw [Bool.not_eq_true] at h
    have hL : catScore category nq2 = 0 := by
      unfold catScore
      rw [h]
      simp
    rw [hL]
    exact catScore_nonneg category nq1

theorem allWordsBonus_le {qws1 qws2 : List String} {m1 m2 : Nat}
    (hlen : qws2.length = qws1.length)
    (himp : m2 = qws2.length → m1 = qws1.length) :
    allWordsBonus qws2 m2 ≤ allWordsBonus qws1 m1 := by
  unfold allWordsBonus
  split
  · next h =>
    rw [if_pos ⟨himp h.1, by rw [← hlen]; exact h.2⟩]
  · split <;> norm_num

/-- **C2 (amended).** For every catalog item whose lower-cased name is
nonempty and free of leading/trailing whitespace (so that the query equal to
the normalized name hits the exact tier), appending any nonempty string of
non-whitespace characters — which makes the exact-match tier no longer fire —
never produces a higher score for that item than the unmodified exact-match
query. (The whitespace restriction is forced: appending further *words* can
out-score the exact match, see the counterexample.) -/
theorem claim_C2_amended_theorem (p : Product) (s : String)
    (h0 : lowerStr p.name ≠ "")
    (h1 : trimStr (lowerStr p.name) = lowerStr p.name)
    (hs0 : s ≠ "") (hs1 : ∀ c ∈ s.data, c.isWhitespace = false) :
    normalizeQuery (lowerStr p.name ++ s) ≠ lowerStr p.name ∧
      (scoreFor (lowerStr p.name ++ s) p).score
        ≤ (scoreFor (lowerStr p.name) p).score := by
  -- basic shape facts about the name and the appended tail
  have hNd : (lowerStr p.name).data ≠ [] := fun h => h0 (String.ext h)
  have hNpos : 0 < (lowerStr p.name).data.length := List.length_pos.mpr hNd
  have htriml : trimL (lowerStr p.name).data = (lowerStr p.name).data :=
    congrArg String.data h1
  have hheadN := head_not_ws_of_trim_eq htriml hNpos
  have hlastN : ∀ (h : (lowerStr p.name).data ≠ []),
      ((lowerStr p.name).data.getLast h).isWhitespace = false :=
    fun h => last_not_ws_of_trim_eq htriml h
  have hsd : s.data ≠ [] := fun h => hs0 (String.ext h)
  have hls_ne : (lowerStr s).data ≠ [] := by
    show s.data.map Char.toLower ≠ []
    simpa using hsd
  have hls_ws : ∀ c ∈ (lowerStr s).data, c.isWhitespace = false := by
    intro c hc
    rcases List.mem_map.mp hc with ⟨d, hd, rfl⟩
    rw [toLower_isWhitespace]
    exact hs1 d hd
  -- the two normalized queries
  have hnq1 : normalizeQuery (lowerStr p.name) = lowerStr p.name := by
    unfold normalizeQuery
    rw [lowerStr_lowerStr, h1]
  have hnq2 : normalizeQuery (lowerStr p.name ++ s)
      = lowerStr p.name ++ lowerStr s := by
    unfold normalizeQuery
    rw [lowerStr_append, lowerStr_lowerStr]
    have htr : trimL ((lowerStr p.name ++ lowerStr s)).data
        = ((lowerStr p.name ++ lowerStr s)).data := by
      rw [String.data_append]
      apply trimL_eq_self_of_ends
      · intro hl
        have hg : ((lowerStr p.name).data ++ (lowerStr s).data).get ⟨0, hl⟩
            = (lowerStr p.name).data.get ⟨0, hNpos⟩ := by
          simp only [List.get_eq_getElem]
          exact List.getElem_append_left hNpos
        rw [hg]
        exact hheadN
      · intro hne
        rw [List.getLast_append_of_ne_nil hls_ne]
        exact hls_ws _ (List.getLast_mem hls_ne)
    show String.mk (trimL ((lowerStr p.name ++ lowerStr s)).data) = _
    rw [htr]
  have hq2data : (normalizeQuery (lowerStr p.name ++ s)).data
      = (lowerStr p.name).data ++ (lowerStr s).data := by
    rw [hnq2, String.data_append]
  -- the exact tier no longer fires: the appended query is strictly longer
  have hlonger : (lowerStr p.name).data.length
      < (normalizeQuery (lowerStr p.name ++ s)).data.length := by
    rw [hq2data, List.length_append]
    have := List.length_pos.mpr hls_ne
    omega
  have hne2 : normalizeQuery (lowerStr p.name ++ s) ≠ lowerStr p.name := by
    intro e
    rw [e] at hlonger
    exact lt_irrefl _ hlonger
  refine ⟨hne2, ?_⟩
  -- the word lists of the two queries
  have hruns_ne : splitWsRuns (lowerStr p.name).data ≠ [] := by
    apply wordsAux_ne_nil
    right
    exact ⟨(lowerStr p.name).data.get ⟨0, hNpos⟩, (lowerStr p.name).data.get_mem _ _, hheadN⟩
  have hw1 : queryWordsOf (lowerStr p.name)
      = (splitWsRuns (lowerStr p.name).data).map String.mk := by
    unfold queryWordsOf
    rw [hnq1]
  have hw2 : queryWordsOf (lowerStr p.name ++ s)
      = (extendLast (splitWsRuns (lowerStr p.name).data)
          (lowerStr s).data).map String.mk := by
    unfold queryWordsOf
    rw [hq2data]
    unfold splitWsRuns
    rw [wordsAux_append hls_ws hls_ne (lowerStr p.name).data [] hlastN]
  -- component comparisons
  have htier1 : (nameTier (lowerStr p.name) (normalizeQuery (lowerStr p.name))).1
      = 1000 := by
    rw [hnq1]
    unfold nameTier
    rw [if_pos rfl]
  have htier2 : (nameTier (lowerStr p.name)
      (normalizeQuery (lowerStr p.name ++ s))).1 ≤ 100 :=
    nameTier_fst_le_of_longer hlonger
  have hpre : (normalizeQuery (lowerStr p.name)).data
      <+: (normalizeQuery (lowerStr p.name ++ s)).data := by
    rw [hq2data, hnq1]
    exact List.prefix_append _ _
  -- credits
  have hcred :
      ((queryWordsOf (lowerStr p.name ++ s)).map
        (wordCredit (lowerStr p.name) (lowerStr p.brand)
          (lowerStr p.description) (lowerStr p.category))).sum
      ≤ ((queryWordsOf (lowerStr p.name)).map
        (wordCredit (lowerStr p.name) (lowerStr p.brand)
          (lowerStr p.description) (lowerStr p.category))).sum := by
    rw [hw1, hw2, List.map_map, List.map_map]
    exact sum_extendLast_le _ _ _ _ _ _ hruns_ne
  -- all-words bonus
  have hbonus :
      allWordsBonus (queryWordsOf (lowerStr p.name ++ s))
        ((queryWordsOf (lowerStr p.name ++ s)).countP
          (wordMatched (lowerStr p.name) (lowerStr p.brand)
            (lowerStr p.description) (lowerStr p.category)))
      ≤ allWordsBonus (queryWordsOf (lowerStr p.name))
        ((queryWordsOf (lowerStr p.name)).countP
          (wordMatched (lowerStr p.name) (lowerStr p.brand)
            (lowerStr p.description) (lowerStr p.category))) := by
    apply allWordsBonus_le
    · rw [hw1, hw2, List.length_map, List.length_map,
        extendLast_length _ _ hruns_ne]
    · intro hfull
      rw [hw2, List.length_map] at hfull
      rw [hw1, List.length_map]
      rw [List.countP_map] at hfull
      rw [List.countP_map]
      rw [extendLast_length _ _ hruns_ne] at hfull
      have hall := List.countP_eq_length.mp
        (by rw [hfull, extendLast_length _ _ hruns_ne])
      rw [List.countP_eq_length]
      intro x hx
      exact all_matched_of_extendLast _ (fun y hy => hall y hy) x hx
  -- remaining bonuses
  have hbs := brandScore_le (lowerStr p.brand) hpre
  have hds := descScore_le (lowerStr p.description) hpre
  have hcs := catScore_le (lowerStr p.category) hpre
  -- assemble
  unfold scoreFor
  rw [scoreProduct_score, scoreProduct_score, htier1]
  have h100 : (nameTier (lowerStr p.name)
      (normalizeQuery (lowerStr p.name ++ s))).1 ≤ 100 := htier2
  generalize (if p.inStock = true then (10 : ℚ) else 0) = st
  linarith

/-- **C2 counterexample.** The claim as stated is false on the code:
appending the characters `" a a … a"` (twenty times) to the normalized name
`"ab"` breaks the exact tier, yet produces a HIGHER score (1100 > 1050),
because every appended word `"a"` is contained in the name and earns +50. -/
theorem claim_C2_counterexample :
    normalizeQuery ("ab" ++ " a a a a a a a a a a a a a a a a a a a a")
        ≠ lowerStr "ab" ∧
      (scoreFor (lowerStr "ab") ⟨"ab", "", "", "", 0, false⟩).score
        < (scoreFor ("ab" ++ " a a a a a a a a a a a a a a a a a a a a")
            ⟨"ab", "", "", "", 0, false⟩).score := by
  constructor
  · with_unfolding_all decide
  · have ha : (scoreFor (lowerStr "ab") ⟨"ab", "", "", "", 0, false⟩).score
        = 1050 := by
      with_unfolding_all rfl
    have hb : (scoreFor ("ab" ++ " a a a a a a a a a a a a a a a a a a a a")
        ⟨"ab", "", "", "", 0, false⟩).score = 1100 := by
      with_unfolding_all rfl
    rw [ha, hb]
    norm_num

/-- Witness for the amended C2: appending the non-whitespace character
`"x"` to `"wireless mouse"` cannot beat the exact match. -/
theorem claim_C2_witness :
    normalizeQuery (lowerStr "Wireless Mouse" ++ "x") ≠ lowerStr "Wireless Mouse" ∧
      (scoreFor (lowerStr "Wireless Mouse" ++ "x")
          ⟨"Wireless Mouse", "Logitech", "", "", 3, true⟩).score
        ≤ (scoreFor (lowerStr "Wireless Mouse")
            ⟨"Wireless Mouse", "Logitech", "", "", 3, true⟩).score :=
  claim_C2_amended_theorem ⟨"Wireless Mouse", "Logitech", "", "", 3, true⟩ "x"
    (by with_unfolding_all decide) (by with_unfolding_all decide)
    (by decide) (by decide)

end Winga
